import Mathlib

/-!
Verification of the catalog lifecycle and change-notification subsystem
of the skills-as-resources MCP server (TypeScript sources:
`skill-discovery.ts`, `subscriptions.ts`, `skill-watcher.ts`, `index.ts`).

Paths, URIs and file contents are modelled as lists of characters
(JavaScript strings).  Filesystem behaviour (realpath resolution, stat,
readdir, watch-handle creation) is supplied through explicit oracle
functions, so every definition below is a pure, executable translation
of the corresponding TypeScript function.
-/

namespace SkillsSpec

/-- Strings of the JavaScript source are modelled as lists of characters. -/
abbrev Path := List Char

/-- Path separator used by the containment check (`path.sep` on POSIX). -/
def sepChar : Char := '/'

/-- Boolean test that `s` starts with `pre` (JavaScript `String.startsWith`). -/
def startsWithList : Path → Path → Bool
  | _, [] => true
  | [], _ :: _ => false
  | c :: s, p :: ps => if c = p then startsWithList s ps else false

/-- Translation of `isPathWithinBase` from `skill-discovery.ts`.  The
oracle `real` models `fs.realpathSync` (`none` when it throws) and
`resolve` models `path.resolve` (total).  When either realpath call
throws, the TypeScript `catch` block falls back to the lexical check. -/
def isPathWithinBase (real : Path → Option Path) (resolve : Path → Path)
    (targetPath baseDir : Path) : Bool :=
  match real baseDir, real targetPath with
  | some realBase, some realTarget =>
      if realTarget = realBase then true
      else startsWithList realTarget (realBase ++ [sepChar])
  | _, _ =>
      startsWithList (resolve targetPath) (resolve baseDir ++ [sepChar])

/-- Supplementary document entry produced by the scanner (`types.ts`). -/
structure SkillDocument where
  path : Path
  mimeType : Path
  size : Nat
  deriving DecidableEq, Repr

/-- Metadata of one discovered skill (`types.ts`).  `metadata` is `none`
when the optional extension map was left `undefined`. -/
structure SkillMetadata where
  name : Path
  description : Path
  path : Path
  skillDir : Path
  metadata : Option (List (Path × Path))
  documents : List SkillDocument
  deriving DecidableEq, Repr

/-- Lookup in an insertion-ordered association list, modelling
`Map.prototype.get` keyed by string value. -/
def lookupKey (k : Path) : List (Path × α) → Option α
  | [] => none
  | (k', v) :: rest => if k' = k then some v else lookupKey k rest

/-- JavaScript line terminators, which `.` in a regular expression
without the `s` flag never matches. -/
def isLineTerm (c : Char) : Bool :=
  c == '\n' || c == '\r' || c == ' ' || c == ' '

/-- Split a character list at its first `'/'`, returning the segment
before it and the remainder after it; `none` when no `'/'` occurs. -/
def splitAtSlash : Path → Option (Path × Path)
  | [] => none
  | c :: rest =>
    if c = '/' then some ([], rest)
    else
      match splitAtSlash rest with
      | none => none
      | some (seg, tail) => some (c :: seg, tail)

/-- Translation of the match against `^skill:\/\/([^\/]+)\/(.+)$` in
`subscriptions.ts`: the first capture is the maximal nonempty run of
non-slash characters, the second is the nonempty remainder, which `.`
forces to be free of line terminators. -/
def parseSkillUri (uri : Path) : Option (Path × Path) :=
  if startsWithList uri ("skill://".data) then
    match splitAtSlash (uri.drop 8) with
    | none => none
    | some (name, rest) =>
      if name = [] then none
      else if rest = [] then none
      else if rest.any isLineTerm then none
      else some (name, rest)
  else none

/-- Translation of `resolveUriToFilePaths` from `subscriptions.ts`.
`join` models `path.join` and `withinBase` models the containment
check applied to the ambient filesystem. -/
def resolveUriToFilePaths (join : Path → Path → Path)
    (withinBase : Path → Path → Bool) (uri : Path)
    (skillMap : List (Path × SkillMetadata)) (skillsDir : Path) : List Path :=
  if uri = "skill://prompt-xml".data then
    skillMap.map (fun kv => kv.2.path)
  else
    match parseSkillUri uri with
    | none => []
    | some (skillName, rest) =>
      match lookupKey skillName skillMap with
      | none => []
      | some skill =>
        if rest = "SKILL.md".data then [skill.path]
        else if rest = "_manifest".data then [skill.skillDir]
        else
          if withinBase (join skill.skillDir rest) skillsDir then
            [join skill.skillDir rest]
          else []

/-- Concrete one-skill catalog entry used by evaluation witnesses. -/
def sampleAlpha : SkillMetadata :=
  { name := "alpha".data, description := "d".data,
    path := "/s/alpha/SKILL.md".data, skillDir := "/s/alpha".data,
    metadata := none, documents := [] }

/-- JavaScript `String.includes`: `sub` occurs contiguously in `s`. -/
def includesSub : Path → Path → Bool
  | [], sub => startsWithList [] sub
  | c :: rest, sub =>
    if startsWithList (c :: rest) sub then true else includesSub rest sub

/-- Maximum skill file size in bytes (`1 * 1024 * 1024`). -/
def MAX_FILE_SIZE : Nat := 1 * 1024 * 1024

/-- Filesystem oracles consumed by `loadDocument`: `join` models
`path.join`, `withinBase` the containment check, `statSize` models
`fs.statSync(..).size` (`none` when stat throws) and `readFile` models
`fs.readFileSync`. -/
structure LoadEnv where
  join : Path → Path → Path
  withinBase : Path → Path → Bool
  statSize : Path → Option Nat
  readFile : Path → Path

/-- Failure modes of `loadDocument`, one per `throw` site plus the
propagated stat exception. -/
inductive LoadError where
  | traversal
  | escape
  | tooLarge
  | ioError
  deriving DecidableEq, Repr

/-- Translation of `loadDocument` from `skill-discovery.ts`. -/
def loadDocument (env : LoadEnv) (skill : SkillMetadata)
    (documentPath skillsDir : Path) : Except LoadError Path :=
  if includesSub documentPath ("..".data) then .error .traversal
  else
    let fullPath := env.join skill.skillDir documentPath
    if !(env.withinBase fullPath skillsDir) then .error .escape
    else
      match env.statSize fullPath with
      | none => .error .ioError
      | some size =>
        if size > MAX_FILE_SIZE then .error .tooLarge
        else .ok (env.readFile fullPath)

/-- One entry of `fs.readdirSync(dir, { withFileTypes: true })`. -/
structure DirEntry where
  name : Path
  isDir : Bool
  deriving DecidableEq, Repr

/-- Front matter of a definition file as far as the scanner inspects
it: a field is `some` exactly when it is present with a string value,
and `metadataFields` holds the string-valued entries of the optional
`metadata` mapping. -/
structure Frontmatter where
  nameField : Option Path
  descriptionField : Option Path
  metadataFields : List (Path × Path)
  deriving DecidableEq, Repr

/-- Whitespace recognised by JavaScript `String.trim`. -/
def isJsWhitespace (c : Char) : Bool :=
  c == ' ' || c == '\t' || c == '\n' || c == '\r' ||
  c == '\x0b' || c == '\x0c' || c == ' ' || c == '﻿'

/-- JavaScript `String.trim`. -/
def trimChars (s : Path) : Path :=
  ((s.dropWhile isJsWhitespace).reverse.dropWhile isJsWhitespace).reverse

/-- `path.join(dir, name)` for a plain entry name; names delivered by
`readdirSync` contain no separators or dot segments, for which `join`
is plain concatenation with one separator. -/
def pathJoin (dir name : Path) : Path := dir ++ sepChar :: name

/-- Filesystem oracles consumed by `discoverSkills`: `resolve` models
`path.resolve`, `rootExists` the `fs.existsSync` check on the resolved
root, `rootEntries` its `readdirSync` listing, `fileExists` the
definition-file probes, `statSize` the size check, `readFrontmatter`
the combination of `readFileSync` and `parseFrontmatter` (`none` when
either throws), and `scanDocs` the result of `scanDocuments`. -/
structure ScanEnv where
  resolve : Path → Path
  rootExists : Bool
  rootEntries : List DirEntry
  fileExists : Path → Bool
  statSize : Path → Nat
  withinBase : Path → Path → Bool
  readFrontmatter : Path → Option Frontmatter
  scanDocs : Path → List SkillDocument

/-- Search for the definition file, preferring `SKILL.md` over
`skill.md` (the unrolled loop of `discoverSkills`). -/
def findSkillMd (env : ScanEnv) (skillDir : Path) : Option Path :=
  if env.fileExists (pathJoin skillDir ("SKILL.md".data)) then
    some (pathJoin skillDir ("SKILL.md".data))
  else if env.fileExists (pathJoin skillDir ("skill.md".data)) then
    some (pathJoin skillDir ("skill.md".data))
  else none

/-- Processing of one top-level directory entry by `discoverSkills`
(`skill-discovery.ts`), threading the accumulated skill map. -/
def processEntry (env : ScanEnv) (resolvedDir : Path)
    (skillMap : List (Path × SkillMetadata)) (entry : DirEntry) :
    List (Path × SkillMetadata) :=
  if !entry.isDir then skillMap
  else
    match findSkillMd env (pathJoin resolvedDir entry.name) with
    | none => skillMap
    | some skillMdPath =>
      if env.statSize skillMdPath > MAX_FILE_SIZE then skillMap
      else if !(env.withinBase skillMdPath resolvedDir) then skillMap
      else
        match env.readFrontmatter skillMdPath with
        | none => skillMap
        | some fm =>
          match fm.nameField with
          | none => skillMap
          | some nm =>
            if trimChars nm = [] then skillMap
            else
              match fm.descriptionField with
              | none => skillMap
              | some desc =>
                if trimChars desc = [] then skillMap
                else
                  if (lookupKey (trimChars nm) skillMap).isSome then skillMap
                  else
                    skillMap ++ [(trimChars nm,
                      { name := trimChars nm,
                        description := trimChars desc,
                        path := skillMdPath,
                        skillDir := pathJoin resolvedDir entry.name,
                        metadata := if fm.metadataFields = [] then none
                                    else some fm.metadataFields,
                        documents := env.scanDocs (pathJoin resolvedDir entry.name) })]

/-- Translation of `discoverSkills` from `skill-discovery.ts`. -/
def discoverSkills (env : ScanEnv) (skillsDir : Path) :
    List (Path × SkillMetadata) :=
  let resolvedDir := env.resolve skillsDir
  if !env.rootExists then []
  else env.rootEntries.foldl (processEntry env resolvedDir) []

/-- Concrete scan environment whose only unit directory `gamma` holds a
2 MB definition file. -/
def gammaEnv : ScanEnv :=
  { resolve := fun p => p, rootExists := true,
    rootEntries := [⟨"gamma".data, true⟩],
    fileExists := fun _ => true, statSize := fun _ => 2 * 1024 * 1024,
    withinBase := fun _ _ => true,
    readFrontmatter := fun _ => some ⟨some "gamma".data, some "d".data, []⟩,
    scanDocs := fun _ => [] }

/-- Concrete scan environment in which the directories `a1` and `a2`
both declare the unit name `alpha`. -/
def dupEnv : ScanEnv :=
  { resolve := fun p => p, rootExists := true,
    rootEntries := [⟨"a1".data, true⟩, ⟨"a2".data, true⟩],
    fileExists := fun _ => true, statSize := fun _ => 10,
    withinBase := fun _ _ => true,
    readFrontmatter := fun _ => some ⟨some "alpha".data, some "d".data, []⟩,
    scanDocs := fun _ => [] }

/-- Deletion of every binding of `k` (`Map.prototype.delete`). -/
def mapDelete (m : List (Path × α)) (k : Path) : List (Path × α) :=
  m.filter (fun kv => kv.1 ≠ k)

/-- Translation of the structural-watcher reconciliation callback of
`index.ts`: live-catalog names missing from the fresh scan are deleted,
names new to the fresh scan are inserted, and nothing else is touched. -/
def reconcileSkillMap (oldMap newMap : List (Path × SkillMetadata)) :
    List (Path × SkillMetadata) :=
  let afterRemovals := (oldMap.map Prod.fst).foldl
    (fun m name => if (lookupKey name newMap).isSome then m else mapDelete m name)
    oldMap
  newMap.foldl
    (fun m kv => if (lookupKey kv.1 m).isSome then m else m ++ [kv])
    afterRemovals

/-- Fresh scan result for `alpha` carrying a changed description. -/
def sampleAlphaNew : SkillMetadata :=
  { sampleAlpha with description := "e".data }

/-- Insertion into a JS `Set` kept as an insertion-ordered list. -/
def setAdd (s : List Path) (x : Path) : List Path :=
  if x ∈ s then s else s ++ [x]

/-- Removal from a JS `Set` kept as an insertion-ordered list. -/
def setRemove (s : List Path) (x : Path) : List Path :=
  s.filter (fun y => y ≠ x)

/-- Replace-or-append update of a JS `Map` kept as an association list
(`Map.prototype.set`). -/
def mapSet (m : List (Path × α)) (k : Path) (v : α) : List (Path × α) :=
  match m with
  | [] => [(k, v)]
  | (k', v') :: rest => if k' = k then (k, v) :: rest else (k', v') :: mapSet rest k v

/-- Mutable state of the subscription manager closure in
`subscriptions.ts`.  A live chokidar watcher object is modelled by the
handle number it was created with, so a leaked duplicate handle for a
path would be visible as a duplicate key in `watchers`. -/
structure SubState where
  subscribedUris : List Path
  uriToFilePaths : List (Path × List Path)
  filePathToUris : List (Path × List Path)
  watchers : List (Path × Nat)
  nextHandle : Nat
  debounceTimers : List Path
  deriving DecidableEq, Repr

/-- State of the manager right after `createSubscriptionManager`. -/
def initState : SubState :=
  { subscribedUris := [], uriToFilePaths := [], filePathToUris := [],
    watchers := [], nextHandle := 0, debounceTimers := [] }

/-- Translation of `ensureWatcher`: start watching `filePath` unless a
watcher for it already exists. -/
def ensureWatcher (st : SubState) (filePath : Path) : SubState :=
  if filePath ∈ st.watchers.map Prod.fst then st
  else { st with watchers := st.watchers ++ [(filePath, st.nextHandle)],
                 nextHandle := st.nextHandle + 1 }

/-- Translation of `removeWatcher`: close and discard the watcher for
`filePath` when one exists. -/
def removeWatcher (st : SubState) (filePath : Path) : SubState :=
  { st with watchers := st.watchers.filter (fun kv => kv.1 ≠ filePath) }

/-- Body of the per-path loop of `subscribe`: record `uri` as a
dependent of `p` and make sure `p` is watched. -/
def addPathDep (uri : Path) (st : SubState) (p : Path) : SubState :=
  ensureWatcher
    { st with filePathToUris :=
        (mapSet st.filePathToUris p
          (setAdd ((lookupKey p st.filePathToUris).getD []) uri)) } p

/-- Translation of `subscribe` from `subscriptions.ts` (without watch
creation failures; see `subscribeExc` for the throwing variant). -/
def subscribeOp (join : Path → Path → Path) (withinBase : Path → Path → Bool)
    (skillMap : List (Path × SkillMetadata)) (skillsDir : Path)
    (st : SubState) (uri : Path) : SubState :=
  if uri ∈ st.subscribedUris then st
  else
    let st1 := { st with subscribedUris := setAdd st.subscribedUris uri }
    let paths := resolveUriToFilePaths join withinBase uri skillMap skillsDir
    if paths = [] then st1
    else
      (paths.foldl (addPathDep uri)
        { st1 with uriToFilePaths := mapSet st1.uriToFilePaths uri (paths.foldl setAdd []) })

/-- Body of the per-path loop of `unsubscribe`: drop `uri` from the
dependents of `p`, discarding the watcher when no dependent remains. -/
def removePathDep (uri : Path) (st : SubState) (p : Path) : SubState :=
  match lookupKey p st.filePathToUris with
  | none => st
  | some uris =>
    if setRemove uris uri = [] then
      removeWatcher { st with filePathToUris := mapDelete st.filePathToUris p } p
    else { st with filePathToUris := mapSet st.filePathToUris p (setRemove uris uri) }

/-- Translation of `unsubscribe` from `subscriptions.ts`. -/
def unsubscribeOp (st : SubState) (uri : Path) : SubState :=
  if uri ∉ st.subscribedUris then st
  else
    let st1 := { st with subscribedUris := setRemove st.subscribedUris uri,
                         debounceTimers := setRemove st.debounceTimers uri }
    match lookupKey uri st1.uriToFilePaths with
    | none => st1
    | some paths =>
      let st2 := paths.foldl (removePathDep uri) st1
      { st2 with uriToFilePaths := mapDelete st2.uriToFilePaths uri }

/-- Translation of `unsubscribeByPrefix` from `subscriptions.ts`. -/
def unsubscribeByPfx (st : SubState) (pfx : Path) : SubState :=
  (st.subscribedUris.filter (fun uri => startsWithList uri pfx)).foldl
    unsubscribeOp st

/-- JavaScript backslash normalization used by `onFileChange`. -/
def normalizeSlashes (p : Path) : Path :=
  p.map (fun c => if c = '\\' then '/' else c)

/-- Translation of `onFileChange` from `subscriptions.ts`: every
identifier depending on a watched path matching the changed path gets
its debounce timer (re)started; only the timer table changes. -/
def onFileChangeOp (st : SubState) (changedPath : Path) : SubState :=
  { st with debounceTimers :=
      st.filePathToUris.foldl (fun timers kv =>
        if normalizeSlashes changedPath = normalizeSlashes kv.1
            ∨ startsWithList (normalizeSlashes changedPath)
                (normalizeSlashes kv.1 ++ [sepChar]) = true then
          kv.2.foldl setAdd timers
        else timers) st.debounceTimers }

/-- Firing of the pending debounce timer for `uri` (the `setTimeout`
callback installed by `onFileChange`): a timer that is not pending
cannot fire, and the callback re-checks the subscribed set before
notifying.  Returns the new state and the notifications delivered. -/
def timerFireOp (st : SubState) (uri : Path) : SubState × List Path :=
  if uri ∈ st.debounceTimers then
    if uri ∈ st.subscribedUris then
      ({ st with debounceTimers := setRemove st.debounceTimers uri }, [uri])
    else ({ st with debounceTimers := setRemove st.debounceTimers uri }, [])
  else (st, [])

/-- Translation of `close` from `subscriptions.ts`. -/
def closeOp (st : SubState) : SubState :=
  { subscribedUris := [], uriToFilePaths := [], filePathToUris := [],
    watchers := [], nextHandle := st.nextHandle, debounceTimers := [] }

/-- External events driving the subscription manager: the four public
operations, a chokidar change event, and the expiry of a debounce
timer. -/
inductive SubEvent where
  | subscribe (uri : Path)
  | unsubscribe (uri : Path)
  | unsubByPfx (pfx : Path)
  | fileChange (p : Path)
  | timerFire (uri : Path)
  | close
  deriving DecidableEq, Repr

/-- One step of the subscription manager, returning the successor state
and the notifications delivered during the step. -/
def step (join : Path → Path → Path) (withinBase : Path → Path → Bool)
    (skillMap : List (Path × SkillMetadata)) (skillsDir : Path)
    (st : SubState) : SubEvent → SubState × List Path
  | .subscribe uri => (subscribeOp join withinBase skillMap skillsDir st uri, [])
  | .unsubscribe uri => (unsubscribeOp st uri, [])
  | .unsubByPfx pfx => (unsubscribeByPfx st pfx, [])
  | .fileChange p => (onFileChangeOp st p, [])
  | .timerFire uri => timerFireOp st uri
  | .close => (closeOp st, [])

/-- Run of a sequence of events, accumulating all notifications. -/
def runEvents (join : Path → Path → Path) (withinBase : Path → Path → Bool)
    (skillMap : List (Path × SkillMetadata)) (skillsDir : Path)
    (st : SubState) : List SubEvent → SubState × List Path
  | [] => (st, [])
  | e :: rest =>
    let r1 := step join withinBase skillMap skillsDir st e
    let r2 := runEvents join withinBase skillMap skillsDir r1.1 rest
    (r2.1, r1.2 ++ r2.2)

/-- `ensureWatcher` in the presence of chokidar `watch` failures:
`watchOk` says whether creating a watcher for a path succeeds; on
failure nothing is recorded and the exception propagates, carrying the
state at the throw point. -/
def ensureWatcherExc (watchOk : Path → Bool) (st : SubState) (filePath : Path) :
    Except SubState SubState :=
  if filePath ∈ st.watchers.map Prod.fst then .ok st
  else if watchOk filePath then
    .ok { st with watchers := st.watchers ++ [(filePath, st.nextHandle)],
                  nextHandle := st.nextHandle + 1 }
  else .error st

/-- Per-path loop of `subscribe` with watch failures: mutations made
before the throw survive, and the loop aborts at the first failure. -/
def subscribeLoopExc (uri : Path) (watchOk : Path → Bool) :
    SubState → List Path → Except SubState SubState
  | st, [] => .ok st
  | st, p :: rest =>
    match ensureWatcherExc watchOk
        { st with filePathToUris :=
            (mapSet st.filePathToUris p
              (setAdd ((lookupKey p st.filePathToUris).getD []) uri)) } p with
    | .error stE => .error stE
    | .ok st' => subscribeLoopExc uri watchOk st' rest

/-- Translation of `subscribe` in which `chokidar.watch` may throw.
`subscribe` installs the identifier in the subscribed set and the path
tables before creating watchers and has no handler, so a throw escapes
to the caller with those mutations in place. -/
def subscribeExc (join : Path → Path → Path) (withinBase : Path → Path → Bool)
    (skillMap : List (Path × SkillMetadata)) (skillsDir : Path)
    (watchOk : Path → Bool) (st : SubState) (uri : Path) :
    Except SubState SubState :=
  if uri ∈ st.subscribedUris then .ok st
  else
    let st1 := { st with subscribedUris := setAdd st.subscribedUris uri }
    let paths := resolveUriToFilePaths join withinBase uri skillMap skillsDir
    if paths = [] then .ok st1
    else
      subscribeLoopExc uri watchOk
        { st1 with uriToFilePaths := mapSet st1.uriToFilePaths uri (paths.foldl setAdd []) }
        paths

/-- Invariant of the subscription manager relating the watcher table to
the dependent-identifier table. -/
def WatchInv (st : SubState) : Prop :=
  (st.watchers.map Prod.fst).Nodup
  ∧ (∀ p uris, lookupKey p st.filePathToUris = some uris → uris ≠ [])
  ∧ (∀ p, p ∈ st.watchers.map Prod.fst ↔ (lookupKey p st.filePathToUris).isSome = true)

/-- State in which the concrete failing subscribe below leaves the
manager: the identifier and its path bookkeeping are recorded but no
watcher exists. -/
def failState : SubState :=
  { subscribedUris := ["skill://alpha/SKILL.md".data],
    uriToFilePaths := [("skill://alpha/SKILL.md".data, ["/s/alpha/SKILL.md".data])],
    filePathToUris := [("/s/alpha/SKILL.md".data, ["skill://alpha/SKILL.md".data])],
    watchers := [], nextHandle := 0, debounceTimers := [] }

theorem startsWithList_iff (s p : Path) :
    startsWithList s p = true ↔ ∃ t, s = p ++ t := by
  induction p generalizing s with
  | nil => simp [startsWithList]
  | cons c ps ih =>
    cases s with
    | nil => simp [startsWithList]
    | cons a as =>
      by_cases hac : a = c
      · subst hac
        simpa [startsWithList] using ih as
      · simp [startsWithList, hac]

theorem startsWithList_sibling (R tail : Path) :
    startsWithList (R ++ '-' :: tail) (R ++ [sepChar]) = false := by
  induction R with
  | nil => simp [startsWithList, sepChar]
  | cons c R ih => simpa [startsWithList] using ih

theorem sibling_ne (R tail : Path) : R ++ '-' :: tail ≠ R := by
  intro h
  have := congrArg List.length h
  simp at this

/-- C1 (amended).  On the branch where both realpath resolutions
succeed, containment holds iff the resolved target equals the resolved
base or extends it past a path separator; on the lexical fallback branch
(taken when either resolution fails) only strict separator-nesting is
accepted, so a target whose normalization equals the base is rejected
there; a sibling path whose name merely extends the root as a string is
rejected on both branches. -/
theorem isPathWithinBase_characterization (real : Path → Option Path)
    (resolve : Path → Path) (R : Path) :
    (∀ P rb rt, real R = some rb → real P = some rt →
      (isPathWithinBase real resolve P R = true ↔
        (rt = rb ∨ ∃ t, rt = rb ++ sepChar :: t)))
    ∧ (∀ P, (real R = none ∨ real P = none) →
      (isPathWithinBase real resolve P R = true ↔
        (∃ t, resolve P = resolve R ++ sepChar :: t)))
    ∧ (∀ tail, real R = some R → real (R ++ '-' :: tail) = some (R ++ '-' :: tail) →
        isPathWithinBase real resolve (R ++ '-' :: tail) R = false)
    ∧ (∀ tail, (real R = none ∨ real (R ++ '-' :: tail) = none) →
        resolve R = R → resolve (R ++ '-' :: tail) = R ++ '-' :: tail →
        isPathWithinBase real resolve (R ++ '-' :: tail) R = false) := by
  refine ⟨?_, ?_, ?_, ?_⟩
  · intro P rb rt hR hP
    simp only [isPathWithinBase, hR, hP]
    by_cases h : rt = rb
    · simp [h]
    · rw [if_neg h, startsWithList_iff]
      constructor
      · rintro ⟨t, ht⟩
        exact Or.inr ⟨t, by rw [ht]; simp⟩
      · rintro (h' | ⟨t, ht⟩)
        · exact absurd h' h
        · exact ⟨t, by rw [ht]; simp⟩
  · intro P h
    have hbranch : isPathWithinBase real resolve P R =
        startsWithList (resolve P) (resolve R ++ [sepChar]) := by
      rcases h with h | h
      · simp [isPathWithinBase, h]
      · cases hR : real R <;> simp [isPathWithinBase, hR, h]
    rw [hbranch, startsWithList_iff]
    constructor
    · rintro ⟨t, ht⟩
      exact ⟨t, by rw [ht]; simp⟩
    · rintro ⟨t, ht⟩
      exact ⟨t, by rw [ht]; simp⟩
  · intro tail hR hP
    simp only [isPathWithinBase, hR, hP, if_neg (sibling_ne R tail)]
    exact startsWithList_sibling R tail
  · intro tail h hres hrest
    have hbranch : isPathWithinBase real resolve (R ++ '-' :: tail) R =
        startsWithList (resolve (R ++ '-' :: tail)) (resolve R ++ [sepChar]) := by
      rcases h with h | h
      · simp [isPathWithinBase, h]
      · cases hR : real R <;> simp [isPathWithinBase, hR, h]
    rw [hbranch, hres, hrest]
    exact startsWithList_sibling R tail

/-- Witness for C1 (amended): the sibling `/r-x` of root `/r` is not
contained in `/r` when realpath resolution succeeds everywhere. -/
theorem isPathWithinBase_characterization_w :
    isPathWithinBase (fun p => some p) (fun p => p)
      ("/r".data ++ '-' :: "x".data) ("/r".data) = false :=
  (isPathWithinBase_characterization (fun p => some p) (fun p => p)
    "/r".data).2.2.1 "x".data rfl rfl

/-- C1 counterexample: when realpath resolution fails, the fallback
branch rejects the target `/r` against the base `/r` even though its
lexical normalization is exactly the base, contradicting the claimed
iff on the fallback branch. -/
theorem isPathWithinBase_fallback_eq_cex :
    (fun p : Path => p) "/r".data = "/r".data ∧
    isPathWithinBase (fun _ => none) (fun p => p) "/r".data "/r".data = false :=
  ⟨rfl, by decide⟩

theorem startsWithList_append (p t : Path) : startsWithList (p ++ t) p = true :=
  (startsWithList_iff _ _).mpr ⟨t, rfl⟩

theorem splitAtSlash_append (name rest : Path) (h : '/' ∉ name) :
    splitAtSlash (name ++ '/' :: rest) = some (name, rest) := by
  induction name with
  | nil => simp [splitAtSlash]
  | cons c cs ih =>
    have hc : c ≠ '/' := fun hc => h (hc ▸ List.mem_cons_self c cs)
    have hcs : '/' ∉ cs := fun hm => h (List.mem_cons_of_mem c hm)
    simp [splitAtSlash, hc, ih hcs]

theorem parseSkillUri_append (name rest : Path) (hn : name ≠ [])
    (hs : '/' ∉ name) (hr : rest ≠ []) (hlt : rest.any isLineTerm = false) :
    parseSkillUri ("skill://".data ++ name ++ '/' :: rest) = some (name, rest) := by
  have hpre : startsWithList ("skill://".data ++ (name ++ '/' :: rest)) ("skill://".data) = true :=
    startsWithList_append _ _
  have hdrop : ("skill://".data ++ (name ++ '/' :: rest)).drop 8 = name ++ '/' :: rest := by
    have h8 : ("skill://".data).length = 8 := by decide
    rw [← h8, List.drop_left]
  simp only [parseSkillUri, List.append_assoc, hpre, if_pos, hdrop,
    splitAtSlash_append name rest hs, hn, hr, hlt]
  simp [hn, hr, hlt]

theorem skillUri_ne_promptXml (name rest : Path) :
    "skill://".data ++ name ++ '/' :: rest ≠ "skill://prompt-xml".data := by
  intro h
  have hsplit : ("skill://prompt-xml".data : Path)
      = "skill://".data ++ "prompt-xml".data := by decide
  rw [hsplit, List.append_assoc] at h
  have h2 : name ++ '/' :: rest = "prompt-xml".data :=
    List.append_cancel_left h
  have hmem : '/' ∈ name ++ '/' :: rest :=
    List.mem_append_right _ (List.mem_cons_self _ _)
  rw [h2] at hmem
  exact absurd hmem (by decide)

/-- C2: the resolver maps the aggregate identifier to every unit's
definition-file path, a unit's primary-content identifier to its
definition file, its manifest identifier to its directory, a
supplementary-path identifier to that single joined path guarded by the
boundary check, and everything else (unknown unit names, strings not
matching the scheme) to the empty list. -/
theorem resolveUriToFilePaths_spec (join : Path → Path → Path)
    (withinBase : Path → Path → Bool)
    (skillMap : List (Path × SkillMetadata)) (skillsDir : Path) :
    (resolveUriToFilePaths join withinBase ("skill://prompt-xml".data) skillMap skillsDir
        = skillMap.map (fun kv => kv.2.path))
    ∧ (∀ name skill, name ≠ [] → '/' ∉ name →
        lookupKey name skillMap = some skill →
        resolveUriToFilePaths join withinBase
            ("skill://".data ++ name ++ '/' :: "SKILL.md".data) skillMap skillsDir
          = [skill.path]
        ∧ resolveUriToFilePaths join withinBase
            ("skill://".data ++ name ++ '/' :: "_manifest".data) skillMap skillsDir
          = [skill.skillDir]
        ∧ (∀ rest, rest ≠ [] → rest.any isLineTerm = false →
            rest ≠ "SKILL.md".data → rest ≠ "_manifest".data →
            resolveUriToFilePaths join withinBase
                ("skill://".data ++ name ++ '/' :: rest) skillMap skillsDir
              = if withinBase (join skill.skillDir rest) skillsDir then
                  [join skill.skillDir rest]
                else []))
    ∧ (∀ name rest, lookupKey name skillMap = none → '/' ∉ name →
        rest ≠ [] → rest.any isLineTerm = false →
        resolveUriToFilePaths join withinBase
            ("skill://".data ++ name ++ '/' :: rest) skillMap skillsDir = [])
    ∧ (∀ uri, parseSkillUri uri = none → uri ≠ "skill://prompt-xml".data →
        resolveUriToFilePaths join withinBase uri skillMap skillsDir = []) := by
  refine ⟨?_, ?_, ?_, ?_⟩
  · simp [resolveUriToFilePaths]
  · intro name skill hn hs hlook
    refine ⟨?_, ?_, ?_⟩
    · rw [resolveUriToFilePaths, if_neg (skillUri_ne_promptXml name _),
        parseSkillUri_append name _ hn hs (by decide) (by decide)]
      simp [hlook]
    · rw [resolveUriToFilePaths, if_neg (skillUri_ne_promptXml name _),
        parseSkillUri_append name _ hn hs (by decide) (by decide)]
      have hne : ("_manifest".data : Path) ≠ "SKILL.md".data := by decide
      simp [hlook, hne]
    · intro rest hr hlt h1 h2
      rw [resolveUriToFilePaths, if_neg (skillUri_ne_promptXml name rest),
        parseSkillUri_append name rest hn hs hr hlt]
      simp [hlook, h1, h2]
  · intro name rest hlook hs hr hlt
    by_cases hn : name = []
    · subst hn
      simp only [List.append_nil]
      have hparse : parseSkillUri ("skill://".data ++ '/' :: rest) = none := by
        have hpre : startsWithList ("skill://".data ++ '/' :: rest) ("skill://".data) = true :=
          startsWithList_append _ _
        have hdrop : ("skill://".data ++ '/' :: rest).drop 8 = '/' :: rest := by
          have h8 : ("skill://".data).length = 8 := by decide
          rw [← h8, List.drop_left]
        simp [parseSkillUri, hpre, hdrop, splitAtSlash]
      have hne : ("skill://".data ++ '/' :: rest : Path) ≠ "skill://prompt-xml".data := by
        exact skillUri_ne_promptXml [] rest
      rw [resolveUriToFilePaths, if_neg hne, hparse]
    · rw [resolveUriToFilePaths, if_neg (skillUri_ne_promptXml name rest),
        parseSkillUri_append name rest hn hs hr hlt]
      simp [hlook]
  · intro uri hparse hne
    rw [resolveUriToFilePaths, if_neg hne, hparse]

/-- Witness for C2: in a one-skill catalog the known name's manifest
identifier resolves to the unit directory. -/
theorem resolveUriToFilePaths_spec_w :
    resolveUriToFilePaths (fun a b => a ++ sepChar :: b) (fun _ _ => true)
        ("skill://".data ++ "alpha".data ++ '/' :: "_manifest".data)
        [("alpha".data, sampleAlpha)] ("/s".data)
      = ["/s/alpha".data] :=
  ((resolveUriToFilePaths_spec (fun a b => a ++ sepChar :: b) (fun _ _ => true)
      [("alpha".data, sampleAlpha)] ("/s".data)).2.1
    "alpha".data sampleAlpha (by decide) (by decide) (by decide)).2.1

/-- C9: any requested document path containing the two-character
substring ".." is rejected with a traversal error, and this holds for
every filesystem oracle — the result does not depend on the
environment, so no filesystem access can influence or precede the
rejection. -/
theorem loadDocument_traversal_guard (skill : SkillMetadata)
    (documentPath skillsDir : Path)
    (h : includesSub documentPath ("..".data) = true) :
    ∀ env : LoadEnv, loadDocument env skill documentPath skillsDir
      = .error .traversal := by
  intro env
  simp [loadDocument, h]

/-- Witness for C9: the single filename "a..b.md" is rejected even
though its ".." is not a parent-directory segment. -/
theorem loadDocument_traversal_guard_w :
    loadDocument
      { join := fun a b => a ++ sepChar :: b, withinBase := fun _ _ => true,
        statSize := fun _ => some 3, readFile := fun _ => [] }
      sampleAlpha ("a..b.md".data) ("/s".data) = .error .traversal :=
  loadDocument_traversal_guard sampleAlpha ("a..b.md".data) ("/s".data)
    (by decide) _

/-- C10: when the configured root directory does not exist the scan
returns the empty catalog; the scan is total, so the caller observes an
empty catalog rather than an error. -/
theorem discoverSkills_missingRoot (env : ScanEnv) (skillsDir : Path)
    (h : env.rootExists = false) :
    discoverSkills env skillsDir = [] := by
  simp [discoverSkills, h]

/-- Witness for C10 on a concrete environment whose root listing would
produce a unit if the root existed. -/
theorem discoverSkills_missingRoot_w :
    discoverSkills
      { resolve := fun p => p, rootExists := false,
        rootEntries := [⟨"alpha".data, true⟩],
        fileExists := fun _ => true, statSize := fun _ => 1,
        withinBase := fun _ _ => true,
        readFrontmatter := fun _ => some ⟨some "alpha".data, some "d".data, []⟩,
        scanDocs := fun _ => [] } ("/s".data) = [] :=
  discoverSkills_missingRoot _ _ rfl

theorem processEntry_oversized (env : ScanEnv) (resolvedDir : Path)
    (m : List (Path × SkillMetadata)) (e : DirEntry) (mdPath : Path)
    (hfind : findSkillMd env (pathJoin resolvedDir e.name) = some mdPath)
    (hsize : env.statSize mdPath > MAX_FILE_SIZE) :
    processEntry env resolvedDir m e = m := by
  by_cases hd : e.isDir
  · simp [processEntry, hd, hfind, hsize]
  · simp [processEntry, hd]

/-- C7: a unit directory whose definition file exceeds the 1 MB size
ceiling is skipped: the catalog of a scan whose root listing contains
it equals the catalog of the same scan without it, so that unit is
entirely absent while the scan of everything else proceeds normally. -/
theorem discoverSkills_oversized_skip (env : ScanEnv) (skillsDir : Path)
    (l1 l2 : List DirEntry) (e : DirEntry) (mdPath : Path)
    (hfind : findSkillMd env (pathJoin (env.resolve skillsDir) e.name) = some mdPath)
    (hsize : env.statSize mdPath > MAX_FILE_SIZE) :
    discoverSkills { env with rootEntries := l1 ++ e :: l2 } skillsDir
      = discoverSkills { env with rootEntries := l1 ++ l2 } skillsDir := by
  have hrw : ∀ es : List DirEntry,
      discoverSkills { env with rootEntries := es } skillsDir
        = if !env.rootExists then []
          else es.foldl (processEntry env (env.resolve skillsDir)) [] :=
    fun es => rfl
  rw [hrw, hrw]
  by_cases hex : env.rootExists
  · simp only [hex, Bool.not_true, Bool.false_eq_true, if_false,
      List.foldl_append, List.foldl_cons,
      processEntry_oversized env _ _ e mdPath hfind hsize]
  · simp [hex]

/-- Witness for C7: the 2 MB `gamma/SKILL.md` leaves the catalog exactly
as it would have been without the `gamma` directory. -/
theorem discoverSkills_oversized_skip_w :
    discoverSkills { gammaEnv with rootEntries := [] ++ ⟨"gamma".data, true⟩ :: [] } ("/s".data)
      = discoverSkills { gammaEnv with rootEntries := [] ++ [] } ("/s".data) :=
  discoverSkills_oversized_skip gammaEnv ("/s".data) [] [] ⟨"gamma".data, true⟩
    (pathJoin (pathJoin ("/s".data) ("gamma".data)) ("SKILL.md".data))
    (by decide) (by decide)

theorem lookupKey_eq_none_iff (k : Path) (m : List (Path × α)) :
    lookupKey k m = none ↔ k ∉ m.map Prod.fst := by
  induction m with
  | nil =>
    constructor
    · intro _ hmem
      exact absurd hmem (List.not_mem_nil k)
    · intro _; rfl
  | cons kv rest ih =>
    obtain ⟨k', v⟩ := kv
    rw [List.map_cons]
    by_cases h : k' = k
    · subst h
      constructor
      · intro hnone
        rw [lookupKey, if_pos rfl] at hnone
        exact absurd hnone (Option.some_ne_none v)
      · intro hmem
        exact absurd (List.mem_cons_self _ _) hmem
    · rw [lookupKey, if_neg h, ih, List.mem_cons]
      constructor
      · intro hk hor
        rcases hor with h1 | h2
        · exact h h1.symm
        · exact hk h2
      · intro hk h2
        exact hk (Or.inr h2)

theorem lookupKey_append_some (k : Path) (m t : List (Path × α)) (v : α)
    (h : lookupKey k m = some v) : lookupKey k (m ++ t) = some v := by
  induction m with
  | nil => simp [lookupKey] at h
  | cons kv rest ih =>
    obtain ⟨k', v'⟩ := kv
    by_cases hk : k' = k
    · simp only [lookupKey, if_pos hk] at h ⊢
      exact h
    · simp only [lookupKey, if_neg hk] at h ⊢
      exact ih h

theorem lookupKey_append_none (k : Path) (m : List (Path × α)) (kv : Path × α)
    (h : lookupKey k m = none) :
    lookupKey k (m ++ [kv]) = if kv.1 = k then some kv.2 else none := by
  induction m with
  | nil => simp [lookupKey]
  | cons kv' rest ih =>
    obtain ⟨k', v'⟩ := kv'
    by_cases hk : k' = k
    · simp [lookupKey, hk] at h
    · simp only [lookupKey, if_neg hk] at h ⊢
      exact ih h

theorem processEntry_shape (env : ScanEnv) (rd : Path)
    (m : List (Path × SkillMetadata)) (e : DirEntry) :
    processEntry env rd m e = m ∨
      ∃ k v, lookupKey k m = none ∧ processEntry env rd m e = m ++ [(k, v)] := by
  unfold processEntry
  split
  · exact Or.inl rfl
  split
  · exact Or.inl rfl
  split
  · exact Or.inl rfl
  split
  · exact Or.inl rfl
  split
  · exact Or.inl rfl
  split
  · exact Or.inl rfl
  split
  · exact Or.inl rfl
  split
  · exact Or.inl rfl
  split
  · exact Or.inl rfl
  split
  · exact Or.inl rfl
  rename_i hsome
  refine Or.inr ⟨_, _, ?_, rfl⟩
  simpa using hsome

theorem foldl_processEntry_extends (env : ScanEnv) (rd : Path)
    (entries : List DirEntry) (m : List (Path × SkillMetadata)) :
    ∃ t, entries.foldl (processEntry env rd) m = m ++ t := by
  induction entries generalizing m with
  | nil => exact ⟨[], (List.append_nil m).symm⟩
  | cons e rest ih =>
    rw [List.foldl_cons]
    rcases processEntry_shape env rd m e with h | ⟨k, v, _, h⟩
    · rw [h]; exact ih m
    · rw [h]
      obtain ⟨t, ht⟩ := ih (m ++ [(k, v)])
      exact ⟨(k, v) :: t, by simp [ht]⟩

theorem foldl_processEntry_nodupKeys (env : ScanEnv) (rd : Path)
    (entries : List DirEntry) (m : List (Path × SkillMetadata))
    (hm : (m.map Prod.fst).Nodup) :
    ((entries.foldl (processEntry env rd) m).map Prod.fst).Nodup := by
  induction entries generalizing m with
  | nil => exact hm
  | cons e rest ih =>
    rw [List.foldl_cons]
    rcases processEntry_shape env rd m e with h | ⟨k, v, hk, h⟩
    · rw [h]; exact ih m hm
    · rw [h]
      refine ih (m ++ [(k, v)]) ?_
      have hnotin : k ∉ m.map Prod.fst := (lookupKey_eq_none_iff k m).mp hk
      rw [List.map_append, List.map_cons, List.map_nil]
      refine List.Nodup.append hm (List.nodup_singleton k) ?_
      intro a ha hak
      rw [List.mem_singleton] at hak
      subst hak
      exact hnotin ha

/-- C8: a scan yields a catalog with duplicate-free unit names; the
processing of one entry either leaves the catalog unchanged or appends
a fresh name, so later entries only extend the catalog, the catalog of
a longer listing extends the catalog of its first part, and an entry
established for a name keeps its value over any further processing
(first-discovered wins, later duplicates change nothing). -/
theorem discoverSkills_unique_names (env : ScanEnv) (skillsDir : Path) :
    (((discoverSkills env skillsDir).map Prod.fst).Nodup)
    ∧ (∀ m e, processEntry env (env.resolve skillsDir) m e = m ∨
        ∃ k v, lookupKey k m = none ∧
          processEntry env (env.resolve skillsDir) m e = m ++ [(k, v)])
    ∧ (∀ l1 l2 : List DirEntry, ∃ t,
        discoverSkills { env with rootEntries := l1 ++ l2 } skillsDir
          = discoverSkills { env with rootEntries := l1 } skillsDir ++ t)
    ∧ (∀ (name : Path) (v : SkillMetadata) (l1 l2 : List DirEntry),
        lookupKey name (discoverSkills { env with rootEntries := l1 } skillsDir) = some v →
        lookupKey name (discoverSkills { env with rootEntries := l1 ++ l2 } skillsDir) = some v) := by
  have hrw : ∀ es : List DirEntry,
      discoverSkills { env with rootEntries := es } skillsDir
        = if !env.rootExists then []
          else es.foldl (processEntry env (env.resolve skillsDir)) [] :=
    fun es => rfl
  have hext : ∀ l1 l2 : List DirEntry, ∃ t,
      discoverSkills { env with rootEntries := l1 ++ l2 } skillsDir
        = discoverSkills { env with rootEntries := l1 } skillsDir ++ t := by
    intro l1 l2
    rw [hrw, hrw]
    by_cases hex : env.rootExists
    · simp only [hex, Bool.not_true, Bool.false_eq_true, if_false, List.foldl_append]
      exact foldl_processEntry_extends env _ l2 _
    · have hex' : env.rootExists = false := by
        cases hb : env.rootExists
        · rfl
        · exact absurd hb hex
      refine ⟨[], ?_⟩
      rw [hex']
      rfl
  refine ⟨?_, ?_, hext, ?_⟩
  · unfold discoverSkills
    split
    · simp
    · exact foldl_processEntry_nodupKeys env _ env.rootEntries [] (by simp)
  · intro m e
    exact processEntry_shape env _ m e
  · intro name v l1 l2 hv
    obtain ⟨t, ht⟩ := hext l1 l2
    rw [ht]
    exact lookupKey_append_some name _ t v hv

/-- Witness for C8: with two directories declaring the name `alpha`,
the catalog entry established by the first directory `a1` survives the
processing of the duplicate `a2` unchanged. -/
theorem discoverSkills_unique_names_w :
    lookupKey ("alpha".data)
        (discoverSkills { dupEnv with rootEntries := [⟨"a1".data, true⟩] ++ [⟨"a2".data, true⟩] } ("/s".data))
      = some
        { name := "alpha".data, description := "d".data,
          path := pathJoin (pathJoin ("/s".data) ("a1".data)) ("SKILL.md".data),
          skillDir := pathJoin ("/s".data) ("a1".data),
          metadata := none, documents := [] } :=
  (discoverSkills_unique_names dupEnv ("/s".data)).2.2.2 ("alpha".data) _
    [⟨"a1".data, true⟩] [⟨"a2".data, true⟩] (by decide)

theorem lookupKey_mapDelete_self (k : Path) (m : List (Path × α)) :
    lookupKey k (mapDelete m k) = none := by
  induction m with
  | nil => rfl
  | cons kv rest ih =>
    obtain ⟨k', v⟩ := kv
    by_cases h : k' = k
    · simpa [mapDelete, h] using ih
    · simpa [mapDelete, lookupKey, h] using ih

theorem lookupKey_mapDelete_ne (k n : Path) (m : List (Path × α)) (h : n ≠ k) :
    lookupKey k (mapDelete m n) = lookupKey k m := by
  induction m with
  | nil => rfl
  | cons kv rest ih =>
    obtain ⟨k', v⟩ := kv
    by_cases hn : k' = n
    · have hkk : k' ≠ k := fun hkk => h (hn.symm.trans hkk)
      have hdrop : mapDelete ((k', v) :: rest) n = mapDelete rest n := by
        simp [mapDelete, List.filter_cons, hn]
      rw [hdrop, ih, lookupKey, if_neg hkk]
    · have hkeep : mapDelete ((k', v) :: rest) n = (k', v) :: mapDelete rest n := by
        simp [mapDelete, List.filter_cons, hn]
      rw [hkeep]
      by_cases hk : k' = k
      · rw [lookupKey, if_pos hk, lookupKey, if_pos hk]
      · rw [lookupKey, if_neg hk, lookupKey, if_neg hk, ih]

theorem lookupKey_mapDelete_none (k n : Path) (m : List (Path × α))
    (h : lookupKey k m = none) : lookupKey k (mapDelete m n) = none := by
  by_cases hn : n = k
  · subst hn; exact lookupKey_mapDelete_self n m
  · rw [lookupKey_mapDelete_ne k n m hn]; exact h

theorem removeFold_some (keyList : List Path)
    (newMap m : List (Path × SkillMetadata)) (k : Path)
    (hk : (lookupKey k newMap).isSome) :
    lookupKey k (keyList.foldl
        (fun m name => if (lookupKey name newMap).isSome then m else mapDelete m name) m)
      = lookupKey k m := by
  induction keyList generalizing m with
  | nil => rfl
  | cons n rest ih =>
    rw [List.foldl_cons]
    by_cases hn : (lookupKey n newMap).isSome
    · rw [if_pos hn, ih m]
    · rw [if_neg hn]
      have hnk : n ≠ k := fun h => hn (h ▸ hk)
      rw [ih (mapDelete m n), lookupKey_mapDelete_ne k n m hnk]

theorem removeFold_none (keyList : List Path)
    (newMap m : List (Path × SkillMetadata)) (k : Path)
    (hm : lookupKey k m = none) :
    lookupKey k (keyList.foldl
        (fun m name => if (lookupKey name newMap).isSome then m else mapDelete m name) m)
      = none := by
  induction keyList generalizing m with
  | nil => exact hm
  | cons n rest ih =>
    rw [List.foldl_cons]
    by_cases hn : (lookupKey n newMap).isSome
    · rw [if_pos hn]; exact ih m hm
    · rw [if_neg hn]
      exact ih (mapDelete m n) (lookupKey_mapDelete_none k n m hm)

theorem removeFold_mem (keyList : List Path)
    (newMap m : List (Path × SkillMetadata)) (k : Path)
    (hnew : lookupKey k newMap = none) (hmem : k ∈ keyList) :
    lookupKey k (keyList.foldl
        (fun m name => if (lookupKey name newMap).isSome then m else mapDelete m name) m)
      = none := by
  induction keyList generalizing m with
  | nil => exact absurd hmem (List.not_mem_nil k)
  | cons n rest ih =>
    rw [List.foldl_cons]
    by_cases hk : n = k
    · subst hk
      rw [if_neg (by rw [hnew]; exact fun h => by simp at h)]
      exact removeFold_none rest newMap _ n (lookupKey_mapDelete_self n m)
    · rcases List.mem_cons.mp hmem with h | h
      · exact absurd h.symm hk
      · by_cases hn : (lookupKey n newMap).isSome
        · rw [if_pos hn]; exact ih m h
        · rw [if_neg hn]; exact ih (mapDelete m n) h

theorem addFold_lookup (newList : List (Path × SkillMetadata))
    (m : List (Path × SkillMetadata)) (k : Path) :
    lookupKey k (newList.foldl
        (fun m kv => if (lookupKey kv.1 m).isSome then m else m ++ [kv]) m)
      = match lookupKey k m with
        | some v => some v
        | none => lookupKey k newList := by
  induction newList generalizing m with
  | nil =>
    cases h : lookupKey k m <;> simp [h, lookupKey]
  | cons kv rest ih =>
    rw [List.foldl_cons]
    cases hm : lookupKey k m with
    | some v =>
      have hstep : lookupKey k (if (lookupKey kv.1 m).isSome then m else m ++ [kv])
          = some v := by
        by_cases hkv : (lookupKey kv.1 m).isSome
        · rw [if_pos hkv]; exact hm
        · rw [if_neg hkv]; exact lookupKey_append_some k m [kv] v hm
      rw [ih, hstep]
    | none =>
      obtain ⟨k1, v1⟩ := kv
      by_cases hk : k1 = k
      · subst hk
        have hkv : ¬(lookupKey k1 m).isSome := by rw [hm]; exact fun h => by simp at h
        rw [if_neg hkv, ih]
        have happ : lookupKey k1 (m ++ [(k1, v1)]) = some v1 := by
          have := lookupKey_append_none k1 m (k1, v1) hm
          simpa using this
        rw [happ]
        simp [lookupKey]
      · have hstep : lookupKey k (if (lookupKey k1 m).isSome then m else m ++ [(k1, v1)])
            = none := by
          by_cases hkv : (lookupKey k1 m).isSome
          · rw [if_pos hkv]; exact hm
          · rw [if_neg hkv]
            have := lookupKey_append_none k m (k1, v1) hm
            simpa [hk] using this
        rw [ih, hstep]
        simp [lookupKey, hk]

/-- C5 (amended): on reconciliation, names absent from the fresh scan
are removed, names new to the fresh scan are inserted with the freshly
scanned Unit object, and for names present in both snapshots the live
catalog keeps the old Unit object unchanged — the new object does not
replace it and no field-level merge happens. -/
theorem reconcileSkillMap_spec (oldMap newMap : List (Path × SkillMetadata)) :
    (∀ k vOld, lookupKey k oldMap = some vOld → (lookupKey k newMap).isSome →
        lookupKey k (reconcileSkillMap oldMap newMap) = some vOld)
    ∧ (∀ k, lookupKey k newMap = none →
        lookupKey k (reconcileSkillMap oldMap newMap) = none)
    ∧ (∀ k, lookupKey k oldMap = none →
        lookupKey k (reconcileSkillMap oldMap newMap) = lookupKey k newMap) := by
  refine ⟨?_, ?_, ?_⟩
  · intro k vOld hold hnew
    unfold reconcileSkillMap
    rw [addFold_lookup, removeFold_some _ newMap oldMap k hnew, hold]
  · intro k hnew
    unfold reconcileSkillMap
    rw [addFold_lookup]
    have hrem : lookupKey k ((oldMap.map Prod.fst).foldl
        (fun m name => if (lookupKey name newMap).isSome then m else mapDelete m name)
        oldMap) = none := by
      cases hold : lookupKey k oldMap with
      | none => exact removeFold_none _ newMap oldMap k hold
      | some v =>
        have hmem : k ∈ oldMap.map Prod.fst := by
          by_contra hmem
          rw [(lookupKey_eq_none_iff k oldMap).mpr hmem] at hold
          exact Option.noConfusion hold
        exact removeFold_mem _ newMap oldMap k hnew hmem
    rw [hrem, hnew]
  · intro k hold
    unfold reconcileSkillMap
    rw [addFold_lookup, removeFold_none _ newMap oldMap k hold]

/-- C5 counterexample: for the name `alpha` present in both snapshots
the reconciled live catalog still holds the old Unit object, not the
freshly scanned one with the new description. -/
theorem reconcileSkillMap_keeps_old_cex :
    lookupKey ("alpha".data)
        (reconcileSkillMap [("alpha".data, sampleAlpha)]
          [("alpha".data, sampleAlphaNew)])
      = some sampleAlpha ∧ sampleAlpha ≠ sampleAlphaNew := by
  constructor
  · decide
  · decide

/-- Witness for C5 (amended) on the same concrete snapshots. -/
theorem reconcileSkillMap_spec_w :
    lookupKey ("alpha".data)
        (reconcileSkillMap [("alpha".data, sampleAlpha)]
          [("alpha".data, sampleAlphaNew)])
      = some sampleAlpha :=
  (reconcileSkillMap_spec [("alpha".data, sampleAlpha)]
      [("alpha".data, sampleAlphaNew)]).1
    ("alpha".data) sampleAlpha (by decide) (by decide)

theorem mem_setAdd (s : List Path) (x y : Path) :
    y ∈ setAdd s x ↔ y ∈ s ∨ y = x := by
  unfold setAdd
  by_cases h : x ∈ s
  · rw [if_pos h]
    constructor
    · exact Or.inl
    · rintro (h1 | rfl)
      · exact h1
      · exact h
  · rw [if_neg h]
    simp [List.mem_append]

theorem mem_setRemove (s : List Path) (x y : Path) :
    y ∈ setRemove s x ↔ y ∈ s ∧ y ≠ x := by
  simp [setRemove, List.mem_filter]

theorem addPathDep_subscribedUris (uri : Path) (st : SubState) (p : Path) :
    (addPathDep uri st p).subscribedUris = st.subscribedUris := by
  unfold addPathDep ensureWatcher
  split <;> rfl

theorem foldl_addPathDep_subscribedUris (uri : Path) (ps : List Path) (st : SubState) :
    (ps.foldl (addPathDep uri) st).subscribedUris = st.subscribedUris := by
  induction ps generalizing st with
  | nil => rfl
  | cons p rest ih =>
    rw [List.foldl_cons, ih, addPathDep_subscribedUris]

theorem subscribeOp_subscribedUris (join : Path → Path → Path)
    (withinBase : Path → Path → Bool) (skillMap : List (Path × SkillMetadata))
    (skillsDir : Path) (st : SubState) (uri : Path) :
    (subscribeOp join withinBase skillMap skillsDir st uri).subscribedUris
      = if uri ∈ st.subscribedUris then st.subscribedUris
        else setAdd st.subscribedUris uri := by
  by_cases h : uri ∈ st.subscribedUris
  · simp only [subscribeOp, if_pos h]
  · simp only [subscribeOp, if_neg h]
    split
    · rfl
    · rw [foldl_addPathDep_subscribedUris]

theorem removePathDep_subscribedUris (uri : Path) (st : SubState) (p : Path) :
    (removePathDep uri st p).subscribedUris = st.subscribedUris := by
  unfold removePathDep removeWatcher
  split
  · rfl
  split <;> rfl

theorem foldl_removePathDep_subscribedUris (uri : Path) (ps : List Path) (st : SubState) :
    (ps.foldl (removePathDep uri) st).subscribedUris = st.subscribedUris := by
  induction ps generalizing st with
  | nil => rfl
  | cons p rest ih =>
    rw [List.foldl_cons, ih, removePathDep_subscribedUris]

theorem unsubscribeOp_subscribedUris (st : SubState) (uri : Path) :
    (unsubscribeOp st uri).subscribedUris
      = if uri ∈ st.subscribedUris then setRemove st.subscribedUris uri
        else st.subscribedUris := by
  by_cases h : uri ∈ st.subscribedUris
  · rw [if_pos h]
    simp only [unsubscribeOp, if_neg (not_not_intro h)]
    split
    · rfl
    · rw [foldl_removePathDep_subscribedUris]
  · rw [if_neg h]
    simp only [unsubscribeOp, if_pos h]

theorem unsubscribeOp_not_subscribed (st : SubState) (u I : Path)
    (h : I ∉ st.subscribedUris) : I ∉ (unsubscribeOp st u).subscribedUris := by
  rw [unsubscribeOp_subscribedUris]
  split
  · intro hmem
    exact h ((mem_setRemove _ _ _).mp hmem).1
  · exact h

theorem foldl_unsubscribeOp_not_subscribed (us : List Path) (st : SubState) (I : Path)
    (h : I ∉ st.subscribedUris) :
    I ∉ (us.foldl unsubscribeOp st).subscribedUris := by
  induction us generalizing st with
  | nil => exact h
  | cons u rest ih =>
    rw [List.foldl_cons]
    exact ih _ (unsubscribeOp_not_subscribed st u I h)

theorem unsubscribeOp_removes (st : SubState) (I : Path) :
    I ∉ (unsubscribeOp st I).subscribedUris := by
  rw [unsubscribeOp_subscribedUris]
  split
  · intro hmem
    exact ((mem_setRemove _ _ _).mp hmem).2 rfl
  · rename_i h
    exact h

theorem step_notif_mem (join : Path → Path → Path) (withinBase : Path → Path → Bool)
    (skillMap : List (Path × SkillMetadata)) (skillsDir : Path)
    (st : SubState) (e : SubEvent) (I : Path)
    (h : I ∈ (step join withinBase skillMap skillsDir st e).2) :
    e = SubEvent.timerFire I ∧ I ∈ st.subscribedUris := by
  cases e with
  | subscribe u => exact absurd h (List.not_mem_nil I)
  | unsubscribe u => exact absurd h (List.not_mem_nil I)
  | unsubByPfx pfx => exact absurd h (List.not_mem_nil I)
  | fileChange p => exact absurd h (List.not_mem_nil I)
  | close => exact absurd h (List.not_mem_nil I)
  | timerFire u =>
    simp only [step, timerFireOp] at h
    by_cases hp : u ∈ st.debounceTimers
    · rw [if_pos hp] at h
      by_cases hs : u ∈ st.subscribedUris
      · rw [if_pos hs] at h
        have hIu : I = u := List.mem_singleton.mp h
        subst hIu
        exact ⟨rfl, hs⟩
      · rw [if_neg hs] at h
        exact absurd h (List.not_mem_nil I)
    · rw [if_neg hp] at h
      exact absurd h (List.not_mem_nil I)

theorem step_not_subscribed (join : Path → Path → Path)
    (withinBase : Path → Path → Bool) (skillMap : List (Path × SkillMetadata))
    (skillsDir : Path) (st : SubState) (e : SubEvent) (I : Path)
    (h : I ∉ st.subscribedUris) (he : e ≠ SubEvent.subscribe I) :
    I ∉ (step join withinBase skillMap skillsDir st e).1.subscribedUris := by
  cases e with
  | subscribe u =>
    have hu : u ≠ I := fun hh => he (by rw [hh])
    show I ∉ (subscribeOp join withinBase skillMap skillsDir st u).subscribedUris
    rw [subscribeOp_subscribedUris]
    split
    · exact h
    · intro hmem
      rcases (mem_setAdd _ _ _).mp hmem with h1 | h1
      · exact h h1
      · exact hu h1.symm
  | unsubscribe u =>
    exact unsubscribeOp_not_subscribed st u I h
  | unsubByPfx pfx =>
    exact foldl_unsubscribeOp_not_subscribed _ st I h
  | fileChange p => exact h
  | timerFire u =>
    show I ∉ (timerFireOp st u).1.subscribedUris
    simp only [timerFireOp]
    split
    · split
      · exact h
      · exact h
    · exact h
  | close =>
    intro hmem
    exact absurd hmem (List.not_mem_nil I)

theorem runEvents_cons (join : Path → Path → Path) (withinBase : Path → Path → Bool)
    (skillMap : List (Path × SkillMetadata)) (skillsDir : Path)
    (st : SubState) (e : SubEvent) (rest : List SubEvent) :
    runEvents join withinBase skillMap skillsDir st (e :: rest)
      = ((runEvents join withinBase skillMap skillsDir
            (step join withinBase skillMap skillsDir st e).1 rest).1,
         (step join withinBase skillMap skillsDir st e).2 ++
           (runEvents join withinBase skillMap skillsDir
             (step join withinBase skillMap skillsDir st e).1 rest).2) := rfl

theorem runEvents_no_subscribe_no_notif (join : Path → Path → Path)
    (withinBase : Path → Path → Bool) (skillMap : List (Path × SkillMetadata))
    (skillsDir : Path) (events : List SubEvent) (st : SubState) (I : Path)
    (hsub : I ∉ st.subscribedUris)
    (hev : ∀ e ∈ events, e ≠ SubEvent.subscribe I) :
    I ∉ (runEvents join withinBase skillMap skillsDir st events).2 := by
  induction events generalizing st with
  | nil => exact List.not_mem_nil I
  | cons e rest ih =>
    rw [runEvents_cons]
    intro hmem
    rcases List.mem_append.mp hmem with h1 | h1
    · exact hsub (step_notif_mem join withinBase skillMap skillsDir st e I h1).2
    · have hne : e ≠ SubEvent.subscribe I := hev e (List.mem_cons_self e rest)
      exact ih (step join withinBase skillMap skillsDir st e).1
        (step_not_subscribed join withinBase skillMap skillsDir st e I hsub hne)
        (fun e' he' => hev e' (List.mem_cons_of_mem e he')) h1

theorem runEvents_no_timerFire_no_notif (join : Path → Path → Path)
    (withinBase : Path → Path → Bool) (skillMap : List (Path × SkillMetadata))
    (skillsDir : Path) (events : List SubEvent) (st : SubState) (I : Path)
    (hev : ∀ e ∈ events, e ≠ SubEvent.timerFire I) :
    I ∉ (runEvents join withinBase skillMap skillsDir st events).2 := by
  induction events generalizing st with
  | nil => exact List.not_mem_nil I
  | cons e rest ih =>
    rw [runEvents_cons]
    intro hmem
    rcases List.mem_append.mp hmem with h1 | h1
    · exact hev e (List.mem_cons_self e rest)
        (step_notif_mem join withinBase skillMap skillsDir st e I h1).1
    · exact ih (step join withinBase skillMap skillsDir st e).1
        (fun e' he' => hev e' (List.mem_cons_of_mem e he')) h1

theorem runEvents_append (join : Path → Path → Path)
    (withinBase : Path → Path → Bool) (skillMap : List (Path × SkillMetadata))
    (skillsDir : Path) (l1 l2 : List SubEvent) (st : SubState) :
    runEvents join withinBase skillMap skillsDir st (l1 ++ l2)
      = ((runEvents join withinBase skillMap skillsDir
            (runEvents join withinBase skillMap skillsDir st l1).1 l2).1,
         (runEvents join withinBase skillMap skillsDir st l1).2 ++
           (runEvents join withinBase skillMap skillsDir
             (runEvents join withinBase skillMap skillsDir st l1).1 l2).2) := by
  induction l1 generalizing st with
  | nil => rfl
  | cons e rest ih =>
    rw [List.cons_append, runEvents_cons, ih, runEvents_cons]
    dsimp only
    rw [List.append_assoc]

/-- C3: an identifier subscribed and then unsubscribed before its
debounce timer fires is never notified — even when matching filesystem
events arrive in between — because unsubscribe cancels the pending
timer and the timer callback re-checks the subscribed set. -/
theorem subscribe_unsubscribe_no_notification
    (join : Path → Path → Path) (withinBase : Path → Path → Bool)
    (skillMap : List (Path × SkillMetadata)) (skillsDir : Path)
    (st0 : SubState) (I : Path) (mid post : List SubEvent)
    (hmid : ∀ e ∈ mid, e ≠ SubEvent.timerFire I)
    (hpost : ∀ e ∈ post, e ≠ SubEvent.subscribe I) :
    I ∉ (runEvents join withinBase skillMap skillsDir st0
          (([SubEvent.subscribe I] ++ mid) ++ ([SubEvent.unsubscribe I] ++ post))).2 := by
  rw [runEvents_append]
  intro hmem
  rcases List.mem_append.mp hmem with h1 | h1
  · refine runEvents_no_timerFire_no_notif join withinBase skillMap skillsDir
      ([SubEvent.subscribe I] ++ mid) st0 I ?_ h1
    intro e he
    rcases List.mem_append.mp he with h2 | h2
    · rw [List.mem_singleton.mp h2]
      intro hh
      exact SubEvent.noConfusion hh
    · exact hmid e h2
  · rw [List.singleton_append] at h1
    revert h1
    rw [runEvents_cons]
    intro h1
    rcases List.mem_append.mp h1 with h2 | h2
    · exact absurd h2 (List.not_mem_nil I)
    · refine runEvents_no_subscribe_no_notif join withinBase skillMap skillsDir
        post _ I ?_ hpost h2
      exact unsubscribeOp_removes _ I

/-- Witness for C3: subscribe, a matching file change, unsubscribe,
then the (stale) timer expiry — no notification for the identifier. -/
theorem subscribe_unsubscribe_no_notification_w :
    ("skill://alpha/SKILL.md".data : Path) ∉
      (runEvents (fun a b => a ++ sepChar :: b) (fun _ _ => true)
        [("alpha".data, sampleAlpha)] ("/s".data) initState
        (([SubEvent.subscribe ("skill://alpha/SKILL.md".data)] ++
            [SubEvent.fileChange ("/s/alpha/SKILL.md".data)]) ++
         ([SubEvent.unsubscribe ("skill://alpha/SKILL.md".data)] ++
            [SubEvent.timerFire ("skill://alpha/SKILL.md".data)]))).2 :=
  subscribe_unsubscribe_no_notification (fun a b => a ++ sepChar :: b)
    (fun _ _ => true) [("alpha".data, sampleAlpha)] ("/s".data) initState
    ("skill://alpha/SKILL.md".data)
    [SubEvent.fileChange ("/s/alpha/SKILL.md".data)]
    [SubEvent.timerFire ("skill://alpha/SKILL.md".data)]
    (by decide) (by decide)

theorem lookupKey_isSome_iff (k : Path) (m : List (Path × α)) :
    (lookupKey k m).isSome = true ↔ k ∈ m.map Prod.fst := by
  constructor
  · intro hs
    by_contra hmem
    rw [(lookupKey_eq_none_iff k m).mpr hmem] at hs
    simp at hs
  · intro hmem
    cases hx : lookupKey k m with
    | none => exact absurd ((lookupKey_eq_none_iff k m).mp hx) (not_not_intro hmem)
    | some v => rfl

theorem lookupKey_mapSet_self (m : List (Path × α)) (k : Path) (v : α) :
    lookupKey k (mapSet m k v) = some v := by
  induction m with
  | nil => simp [mapSet, lookupKey]
  | cons kv rest ih =>
    obtain ⟨k', v'⟩ := kv
    by_cases h : k' = k
    · simp [mapSet, h, lookupKey]
    · simp [mapSet, h, lookupKey, ih]

theorem mapSet_nil (k : Path) (v : α) :
    mapSet ([] : List (Path × α)) k v = [(k, v)] := rfl

theorem mapSet_cons (k' : Path) (v' : α) (rest : List (Path × α)) (k : Path) (v : α) :
    mapSet ((k', v') :: rest) k v
      = if k' = k then (k, v) :: rest else (k', v') :: mapSet rest k v := rfl

theorem lookupKey_cons (k k' : Path) (v : α) (rest : List (Path × α)) :
    lookupKey k ((k', v) :: rest) = if k' = k then some v else lookupKey k rest := rfl

theorem lookupKey_mapSet_ne (m : List (Path × α)) (k : Path) (v : α) (q : Path)
    (h : q ≠ k) : lookupKey q (mapSet m k v) = lookupKey q m := by
  have hkq : ¬(k = q) := fun hh => h hh.symm
  induction m with
  | nil =>
    rw [mapSet_nil, lookupKey_cons, if_neg hkq]
  | cons kv rest ih =>
    obtain ⟨k', v'⟩ := kv
    rw [mapSet_cons]
    by_cases hk : k' = k
    · subst hk
      rw [if_pos rfl, lookupKey_cons, lookupKey_cons, if_neg hkq, if_neg hkq]
    · rw [if_neg hk, lookupKey_cons, lookupKey_cons]
      by_cases hq : k' = q
      · rw [if_pos hq, if_pos hq]
      · rw [if_neg hq, if_neg hq, ih]

theorem keys_mapSet (m : List (Path × α)) (k : Path) (v : α) :
    (mapSet m k v).map Prod.fst
      = if k ∈ m.map Prod.fst then m.map Prod.fst else m.map Prod.fst ++ [k] := by
  induction m with
  | nil =>
    rw [mapSet_nil, List.map_cons, List.map_nil,
      if_neg (List.not_mem_nil k), List.nil_append]
  | cons kv rest ih =>
    obtain ⟨k', v'⟩ := kv
    rw [mapSet_cons]
    by_cases h : k' = k
    · subst h
      rw [if_pos rfl, List.map_cons, List.map_cons,
        if_pos (List.mem_cons_self _ _)]
    · have hne : ¬(k = k') := fun hh => h hh.symm
      rw [if_neg h, List.map_cons, List.map_cons, ih]
      by_cases hmem : k ∈ rest.map Prod.fst
      · rw [if_pos hmem, if_pos (List.mem_cons.mpr (Or.inr hmem))]
      · rw [if_neg hmem,
          if_neg (by rw [List.mem_cons]; rintro (h1 | h1); exacts [hne h1, hmem h1]),
          List.cons_append]

theorem keys_mapDelete_sublist (m : List (Path × α)) (k : Path) :
    ((mapDelete m k).map Prod.fst).Sublist (m.map Prod.fst) :=
  List.Sublist.map Prod.fst (List.filter_sublist m)

theorem mapDelete_cons (k' : Path) (v' : α) (rest : List (Path × α)) (k : Path) :
    mapDelete ((k', v') :: rest) k
      = if k' = k then mapDelete rest k else (k', v') :: mapDelete rest k := by
  by_cases h : k' = k
  · simp [mapDelete, List.filter_cons, h]
  · simp [mapDelete, List.filter_cons, h]

theorem mem_keys_mapDelete (m : List (Path × α)) (k q : Path) :
    q ∈ (mapDelete m k).map Prod.fst ↔ q ∈ m.map Prod.fst ∧ q ≠ k := by
  induction m with
  | nil =>
    constructor
    · intro h
      exact absurd h (List.not_mem_nil q)
    · intro h
      exact absurd h.1 (List.not_mem_nil q)
  | cons kv rest ih =>
    obtain ⟨k', v'⟩ := kv
    rw [mapDelete_cons, List.map_cons, List.mem_cons]
    by_cases h : k' = k
    · subst h
      rw [if_pos rfl, ih]
      constructor
      · intro hq
        exact ⟨Or.inr hq.1, hq.2⟩
      · rintro ⟨h1 | h1, h2⟩
        · exact absurd h1 h2
        · exact ⟨h1, h2⟩
    · rw [if_neg h, List.map_cons, List.mem_cons, ih]
      constructor
      · rintro (h1 | ⟨h1, h2⟩)
        · exact ⟨Or.inl h1, fun hqk => h (h1.symm.trans hqk)⟩
        · exact ⟨Or.inr h1, h2⟩
      · rintro ⟨h1 | h1, h2⟩
        · exact Or.inl h1
        · exact Or.inr ⟨h1, h2⟩

theorem setAdd_ne_nil (s : List Path) (x : Path) : setAdd s x ≠ [] := by
  unfold setAdd
  split
  · rename_i h
    intro hnil
    rw [hnil] at h
    exact absurd h (List.not_mem_nil x)
  · intro hnil
    simp at hnil

theorem addPathDep_inv (uri : Path) (st : SubState) (p : Path) (h : WatchInv st) :
    WatchInv (addPathDep uri st p) := by
  obtain ⟨h1, h2, h3⟩ := h
  have hself : lookupKey p (mapSet st.filePathToUris p
      (setAdd ((lookupKey p st.filePathToUris).getD []) uri))
      = some (setAdd ((lookupKey p st.filePathToUris).getD []) uri) :=
    lookupKey_mapSet_self _ _ _
  have hother : ∀ q, q ≠ p → lookupKey q (mapSet st.filePathToUris p
      (setAdd ((lookupKey p st.filePathToUris).getD []) uri))
      = lookupKey q st.filePathToUris :=
    fun q hq => lookupKey_mapSet_ne _ _ _ q hq
  have h2' : ∀ q uris, lookupKey q (mapSet st.filePathToUris p
      (setAdd ((lookupKey p st.filePathToUris).getD []) uri)) = some uris → uris ≠ [] := by
    intro q uris hq
    by_cases hqp : q = p
    · subst hqp
      rw [hself] at hq
      cases hq
      exact setAdd_ne_nil _ _
    · rw [hother q hqp] at hq
      exact h2 q uris hq
  unfold addPathDep ensureWatcher
  split
  · rename_i hw
    refine ⟨h1, h2', fun q => ?_⟩
    by_cases hqp : q = p
    · subst hqp
      constructor
      · intro _
        rw [hself]
        rfl
      · intro _
        exact hw
    · rw [hother q hqp]
      exact h3 q
  · rename_i hw
    constructor
    · rw [List.map_append, List.map_cons, List.map_nil]
      refine List.Nodup.append h1 (List.nodup_singleton p) ?_
      intro a ha hb
      rw [List.mem_singleton] at hb
      subst hb
      exact hw ha
    refine ⟨h2', fun q => ?_⟩
    rw [List.map_append, List.map_cons, List.map_nil, List.mem_append,
      List.mem_singleton]
    by_cases hqp : q = p
    · subst hqp
      constructor
      · intro _
        rw [hself]
        rfl
      · intro _
        exact Or.inr rfl
    · rw [hother q hqp]
      constructor
      · rintro (hq | hq)
        · exact (h3 q).mp hq
        · exact absurd hq hqp
      · intro hq
        exact Or.inl ((h3 q).mpr hq)

theorem removePathDep_inv (uri : Path) (st : SubState) (p : Path) (h : WatchInv st) :
    WatchInv (removePathDep uri st p) := by
  obtain ⟨h1, h2, h3⟩ := h
  unfold removePathDep removeWatcher
  split
  · exact ⟨h1, h2, h3⟩
  rename_i uris hlook
  split
  · refine ⟨?_, ?_, ?_⟩
    · show ((mapDelete st.watchers p).map Prod.fst).Nodup
      exact List.Nodup.sublist (keys_mapDelete_sublist st.watchers p) h1
    · intro q uris' hq
      by_cases hqp : q = p
      · subst hqp
        rw [lookupKey_mapDelete_self q st.filePathToUris] at hq
        exact absurd hq (by simp)
      · rw [lookupKey_mapDelete_ne q p st.filePathToUris
          (fun hh => hqp hh.symm)] at hq
        exact h2 q uris' hq
    · intro q
      show q ∈ (mapDelete st.watchers p).map Prod.fst ↔ _
      rw [mem_keys_mapDelete]
      by_cases hqp : q = p
      · subst hqp
        rw [lookupKey_mapDelete_self q st.filePathToUris]
        constructor
        · intro hq
          exact absurd rfl hq.2
        · intro hq
          exact absurd hq (by simp)
      · rw [lookupKey_mapDelete_ne q p st.filePathToUris (fun hh => hqp hh.symm),
          ← h3 q]
        constructor
        · intro hq
          exact hq.1
        · intro hq
          exact ⟨hq, hqp⟩
  · rename_i hne
    refine ⟨h1, ?_, ?_⟩
    · intro q uris' hq
      by_cases hqp : q = p
      · subst hqp
        rw [lookupKey_mapSet_self] at hq
        cases hq
        exact hne
      · rw [lookupKey_mapSet_ne _ _ _ q hqp] at hq
        exact h2 q uris' hq
    · intro q
      by_cases hqp : q = p
      · subst hqp
        rw [lookupKey_mapSet_self]
        constructor
        · intro _
          rfl
        · intro _
          exact (h3 q).mpr (by rw [hlook]; rfl)
      · rw [lookupKey_mapSet_ne _ _ _ q hqp]
        exact h3 q

theorem foldl_addPathDep_inv (uri : Path) (ps : List Path) (st : SubState)
    (h : WatchInv st) : WatchInv (ps.foldl (addPathDep uri) st) := by
  induction ps generalizing st with
  | nil => exact h
  | cons p rest ih =>
    rw [List.foldl_cons]
    exact ih _ (addPathDep_inv uri st p h)

theorem foldl_removePathDep_inv (uri : Path) (ps : List Path) (st : SubState)
    (h : WatchInv st) : WatchInv (ps.foldl (removePathDep uri) st) := by
  induction ps generalizing st with
  | nil => exact h
  | cons p rest ih =>
    rw [List.foldl_cons]
    exact ih _ (removePathDep_inv uri st p h)

theorem subscribeOp_inv (join : Path → Path → Path)
    (withinBase : Path → Path → Bool) (skillMap : List (Path × SkillMetadata))
    (skillsDir : Path) (st : SubState) (uri : Path) (h : WatchInv st) :
    WatchInv (subscribeOp join withinBase skillMap skillsDir st uri) := by
  by_cases hs : uri ∈ st.subscribedUris
  · simp only [subscribeOp, if_pos hs]
    exact h
  · simp only [subscribeOp, if_neg hs]
    split
    · exact h
    · exact foldl_addPathDep_inv uri _ _ h

theorem unsubscribeOp_inv (st : SubState) (uri : Path) (h : WatchInv st) :
    WatchInv (unsubscribeOp st uri) := by
  by_cases hs : uri ∈ st.subscribedUris
  · simp only [unsubscribeOp, if_neg (not_not_intro hs)]
    split
    · exact h
    · exact foldl_removePathDep_inv uri _ _ h
  · simp only [unsubscribeOp, if_pos hs]
    exact h

theorem unsubscribeByPfx_inv (st : SubState) (pfx : Path) (h : WatchInv st) :
    WatchInv (unsubscribeByPfx st pfx) := by
  unfold unsubscribeByPfx
  generalize st.subscribedUris.filter (fun uri => startsWithList uri pfx) = us
  induction us generalizing st with
  | nil => exact h
  | cons u rest ih =>
    rw [List.foldl_cons]
    exact ih _ (unsubscribeOp_inv st u h)

theorem closeOp_inv (st : SubState) : WatchInv (closeOp st) := by
  refine ⟨List.nodup_nil, ?_, ?_⟩
  · intro p uris hq
    exact absurd hq (by simp [closeOp, lookupKey])
  · intro p
    simp [closeOp, lookupKey]

theorem step_inv (join : Path → Path → Path) (withinBase : Path → Path → Bool)
    (skillMap : List (Path × SkillMetadata)) (skillsDir : Path)
    (st : SubState) (e : SubEvent) (h : WatchInv st) :
    WatchInv (step join withinBase skillMap skillsDir st e).1 := by
  cases e with
  | subscribe u => exact subscribeOp_inv join withinBase skillMap skillsDir st u h
  | unsubscribe u => exact unsubscribeOp_inv st u h
  | unsubByPfx pfx => exact unsubscribeByPfx_inv st pfx h
  | fileChange p => exact h
  | timerFire u =>
    show WatchInv (timerFireOp st u).1
    unfold timerFireOp
    split
    · split
      · exact h
      · exact h
    · exact h
  | close => exact closeOp_inv st

theorem runEvents_inv (join : Path → Path → Path) (withinBase : Path → Path → Bool)
    (skillMap : List (Path × SkillMetadata)) (skillsDir : Path)
    (events : List SubEvent) (st : SubState) (h : WatchInv st) :
    WatchInv (runEvents join withinBase skillMap skillsDir st events).1 := by
  induction events generalizing st with
  | nil => exact h
  | cons e rest ih =>
    rw [runEvents_cons]
    exact ih _ (step_inv join withinBase skillMap skillsDir st e h)

theorem initState_inv : WatchInv initState := by
  refine ⟨List.nodup_nil, ?_, ?_⟩
  · intro p uris hq
    exact absurd hq (by simp [initState, lookupKey])
  · intro p
    simp [initState, lookupKey]

/-- C4: along every sequence of subscription-manager operations from
the initial state, each filesystem path owns at most one watch handle
(the watcher table keys are duplicate-free), and a path owns a watch
handle iff its dependent-identifier set is present and non-empty. -/
theorem subscription_watchers_invariant (join : Path → Path → Path)
    (withinBase : Path → Path → Bool) (skillMap : List (Path × SkillMetadata))
    (skillsDir : Path) (events : List SubEvent) :
    (((runEvents join withinBase skillMap skillsDir initState events).1.watchers.map Prod.fst).Nodup)
    ∧ (∀ p, p ∈ (runEvents join withinBase skillMap skillsDir initState events).1.watchers.map Prod.fst
        ↔ ∃ uris, lookupKey p (runEvents join withinBase skillMap skillsDir initState events).1.filePathToUris
            = some uris ∧ uris ≠ []) := by
  obtain ⟨h1, h2, h3⟩ := runEvents_inv join withinBase skillMap skillsDir events
    initState initState_inv
  refine ⟨h1, fun p => ?_⟩
  rw [h3 p]
  constructor
  · intro hs
    cases hx : lookupKey p (runEvents join withinBase skillMap skillsDir
        initState events).1.filePathToUris with
    | none => rw [hx] at hs; exact absurd hs (by simp)
    | some uris => exact ⟨uris, rfl, h2 p uris hx⟩
  · rintro ⟨uris, hx, _⟩
    rw [hx]
    rfl

theorem ensureWatcherExc_subscribedUris (watchOk : Path → Bool) (st : SubState)
    (p : Path) :
    (∀ st', ensureWatcherExc watchOk st p = .ok st' →
      st'.subscribedUris = st.subscribedUris)
    ∧ (∀ stE, ensureWatcherExc watchOk st p = .error stE →
      stE.subscribedUris = st.subscribedUris) := by
  unfold ensureWatcherExc
  split
  · constructor
    · intro st' h
      cases h
      rfl
    · intro stE h
      cases h
  · split
    · constructor
      · intro st' h
        cases h
        rfl
      · intro stE h
        cases h
    · constructor
      · intro st' h
        cases h
      · intro stE h
        cases h
        rfl

theorem subscribeLoopExc_error_subscribedUris (uri : Path) (watchOk : Path → Bool)
    (ps : List Path) (st stE : SubState)
    (h : subscribeLoopExc uri watchOk st ps = .error stE) :
    stE.subscribedUris = st.subscribedUris := by
  induction ps generalizing st with
  | nil => cases h
  | cons p rest ih =>
    rw [subscribeLoopExc] at h
    cases hE : ensureWatcherExc watchOk
        { st with filePathToUris :=
            (mapSet st.filePathToUris p
              (setAdd ((lookupKey p st.filePathToUris).getD []) uri)) } p with
    | error stE' =>
      rw [hE] at h
      cases h
      exact (ensureWatcherExc_subscribedUris watchOk
        { st with filePathToUris :=
            (mapSet st.filePathToUris p
              (setAdd ((lookupKey p st.filePathToUris).getD []) uri)) } p).2 stE hE
    | ok st' =>
      rw [hE] at h
      have h1 := ih st' h
      have h2 := (ensureWatcherExc_subscribedUris watchOk
        { st with filePathToUris :=
            (mapSet st.filePathToUris p
              (setAdd ((lookupKey p st.filePathToUris).getD []) uri)) } p).1 st' hE
      rw [h1, h2]

theorem ensureWatcherExc_fail (watchOk : Path → Bool) (S : SubState) (p : Path)
    (hw : p ∉ S.watchers.map Prod.fst) (hok : watchOk p = false) :
    ensureWatcherExc watchOk S p = .error S := by
  unfold ensureWatcherExc
  rw [if_neg hw, if_neg (by simp [hok])]

theorem subscribeLoopExc_head_fail (uri : Path) (watchOk : Path → Bool)
    (S : SubState) (p : Path) (rest : List Path)
    (hw : p ∉ S.watchers.map Prod.fst) (hok : watchOk p = false) :
    subscribeLoopExc uri watchOk S (p :: rest)
      = .error { S with filePathToUris :=
          (mapSet S.filePathToUris p
            (setAdd ((lookupKey p S.filePathToUris).getD []) uri)) } := by
  rw [subscribeLoopExc,
    ensureWatcherExc_fail watchOk
      { S with filePathToUris :=
          (mapSet S.filePathToUris p
            (setAdd ((lookupKey p S.filePathToUris).getD []) uri)) } p hw hok]

/-- C6 (amended): when watch-handle creation fails during `subscribe`,
the failure propagates to the caller as a hard error, but the
subscription bookkeeping is not rolled back: the error state still
records the identifier in the subscribed set. -/
theorem subscribeExc_error_keeps_identifier (join : Path → Path → Path)
    (withinBase : Path → Path → Bool) (skillMap : List (Path × SkillMetadata))
    (skillsDir : Path) (watchOk : Path → Bool) :
    (∀ st uri stE,
        subscribeExc join withinBase skillMap skillsDir watchOk st uri = .error stE →
        uri ∈ stE.subscribedUris)
    ∧ (∀ st uri p rest,
        uri ∉ st.subscribedUris →
        resolveUriToFilePaths join withinBase uri skillMap skillsDir = p :: rest →
        p ∉ st.watchers.map Prod.fst → watchOk p = false →
        ∃ stE, subscribeExc join withinBase skillMap skillsDir watchOk st uri
          = .error stE) := by
  constructor
  · intro st uri stE h
    by_cases hs : uri ∈ st.subscribedUris
    · simp only [subscribeExc, if_pos hs] at h
      cases h
    · simp only [subscribeExc, if_neg hs] at h
      split at h
      · cases h
      · have hE := subscribeLoopExc_error_subscribedUris uri watchOk _ _ stE h
        rw [hE]
        exact (mem_setAdd _ _ _).mpr (Or.inr rfl)
  · intro st uri p rest hs hres hw hok
    refine ⟨{ subscribedUris := setAdd st.subscribedUris uri,
              uriToFilePaths := mapSet st.uriToFilePaths uri ((p :: rest).foldl setAdd []),
              filePathToUris := (mapSet st.filePathToUris p
                (setAdd ((lookupKey p st.filePathToUris).getD []) uri)),
              watchers := st.watchers, nextHandle := st.nextHandle,
              debounceTimers := st.debounceTimers }, ?_⟩
    simp only [subscribeExc]
    rw [if_neg hs, hres, if_neg (List.cons_ne_nil p rest)]
    exact subscribeLoopExc_head_fail uri watchOk
      { st with subscribedUris := setAdd st.subscribedUris uri,
                uriToFilePaths := mapSet st.uriToFilePaths uri ((p :: rest).foldl setAdd []) }
      p rest hw hok

/-- C6 counterexample: with watch creation failing, subscribe both
propagates the failure and leaves the identifier recorded in the
subscribed set, so the claimed rollback of the subscription does not
happen. -/
theorem subscribeExc_no_rollback_cex :
    subscribeExc (fun a b => a ++ sepChar :: b) (fun _ _ => true)
        [("alpha".data, sampleAlpha)] ("/s".data) (fun _ => false)
        initState ("skill://alpha/SKILL.md".data)
      = .error failState
    ∧ ("skill://alpha/SKILL.md".data : Path) ∈ failState.subscribedUris := by
  constructor
  · rfl
  · decide

/-- Witness for C6 (amended) at the same concrete failing input. -/
theorem subscribeExc_error_keeps_identifier_w :
    ("skill://alpha/SKILL.md".data : Path) ∈ failState.subscribedUris :=
  (subscribeExc_error_keeps_identifier (fun a b => a ++ sepChar :: b)
      (fun _ _ => true) [("alpha".data, sampleAlpha)] ("/s".data)
      (fun _ => false)).1 initState ("skill://alpha/SKILL.md".data) failState rfl

end SkillsSpec
